import Mathlib

/-!
Shallow embedding of the km-traversal core (canonical revision):
the pattern compiler (`parsePattern`/`createStep`), the condition
evaluator (`evaluateCondition`), the frontier-based traversal engine
(`runSteps` and the per-step appliers), and the mutation surface
(`jsSetKey`/`jsRemove`/`jsRemoveNears`/`jsSetValue`).

JavaScript dynamic values are modelled by the tagged union `Value`
(numbers as `Int`; the claims under study do not depend on float
semantics).  Thrown exceptions are modelled by `Except String`.
-/

/-- The tagged union of JavaScript values the engine traverses. -/
inductive Value : Type where
  | null : Value
  | bool : Bool → Value
  | num : Int → Value
  | str : String → Value
  | arr : List Value → Value
  | obj : List (String × Value) → Value

/-- A key position inside a parent container: an object property name
or a numeric array index (JS `string | number`). -/
inductive Key : Type where
  | str : String → Key
  | idx : Nat → Key
deriving DecidableEq, Repr

/-- The JS value a key denotes when passed around as `any`
(array indices are numbers, object keys strings). -/
def Key.toValue : Key → Value
  | .str s => Value.str s
  | .idx n => Value.num (Int.ofNat n)

/-- `typeof node === 'object' && node !== null`: the guard the engine
uses to decide whether a frontier member has children. -/
def Value.isContainer : Value → Bool
  | .arr _ => true
  | .obj _ => true
  | _ => false

mutual

/-- Size measure for well-founded recursion over `Value`. -/
def Value.vsize : Value → Nat
  | .null => 1
  | .bool _ => 1
  | .num _ => 1
  | .str _ => 1
  | .arr xs => 1 + Value.vsizeList xs
  | .obj es => 1 + Value.vsizeEntries es

/-- Size of a list of values (each element weighted by one extra). -/
def Value.vsizeList : List Value → Nat
  | [] => 0
  | v :: vs => 1 + Value.vsize v + Value.vsizeList vs

/-- Size of an entry list of an object value. -/
def Value.vsizeEntries : List (String × Value) → Nat
  | [] => 0
  | e :: es => 1 + Value.vsize e.2 + Value.vsizeEntries es

end

/-- An injected condition: `{ name, action(key, value, target, conditionValue) }`. -/
structure JCondition : Type where
  name : String
  action : Value → Value → Value → Value → Bool

/-- `p` is a prefix of `s` (character-based model of JS
`s.startsWith(p)`). -/
def strStartsWith (s p : String) : Bool := p.toList.isPrefixOf s.toList

/-- `p` is a suffix of `s` (character-based model of JS
`s.endsWith(p)`). -/
def strEndsWith (s p : String) : Bool := p.toList.reverse.isPrefixOf s.toList.reverse

/-- Character-based model of JS `s.trim()`. -/
def strTrim (s : String) : String :=
  ⟨((s.toList.dropWhile Char.isWhitespace).reverse.dropWhile Char.isWhitespace).reverse⟩

/-- JS `s.includes(c)` for a one-character needle. -/
def strContains (s : String) (c : Char) : Bool := s.toList.contains c

/-- JS `s.length` (the sources only measure ASCII tokens). -/
def strLength (s : String) : Nat := s.toList.length

/-- JS `s.slice(n)` from the left. -/
def strDrop (s : String) (n : Nat) : String := ⟨s.toList.drop n⟩

/-- Drop `n` characters from the right (with `strDrop`, JS
`s.slice(1, -1)`). -/
def strDropRight (s : String) (n : Nat) : String :=
  ⟨s.toList.take (s.toList.length - n)⟩

/-- JS `parseInt(s)` restricted to the all-digit strings the compiler
feeds it (`none` on anything else). -/
def strToNat? (s : String) : Option Nat :=
  if s.toList ≠ [] ∧ s.toList.all Char.isDigit then
    some (s.toList.foldl (fun n c => n * 10 + (c.toNat - '0'.toNat)) 0)
  else none

/-- `s.split(sep)` for a one-character separator. -/
def splitCharGo (sep : Char) : List Char → String → List String
  | [], cur => [cur]
  | c :: rest, cur =>
      if c = sep then cur :: splitCharGo sep rest "" else splitCharGo sep rest (cur.push c)

/-- JS `s.split(sep)` for a one-character separator. -/
def splitChar (sep : Char) (s : String) : List String :=
  splitCharGo sep s.toList ""

/-- JS `cond.split('.')`. -/
def splitDot (s : String) : List String :=
  splitChar '.' s

/-- `evaluateCondition(cond, condValue, key, value, injectedConditions)`:
splits the spec on `.` into `[prefix, conditionName]`, reads negation
from a leading `!` on the prefix, resolves the condition by name
(`prefix` itself when no second part exists), picks the target by
`prefix.endsWith('value')`, runs the action and applies negation.
A missing condition name throws. -/
def evaluateCondition (cond : String) (condValue : Value) (key : Value)
    (value : Value) (injectedConditions : List JCondition) :
    Except String Bool :=
  let parts := splitDot cond
  let pfx := parts.headD ""
  let conditionName : Option String := parts[1]?
  let negate := strStartsWith pfx "!"
  let cleanConditionName := conditionName.getD pfx
  match injectedConditions.find? (fun c => c.name == cleanConditionName) with
  | none => .error ("Condition not found: " ++ cleanConditionName)
  | some condition =>
      let target := if strEndsWith pfx "value" then value else key
      let result := condition.action key value target condValue
      .ok (if negate then !result else result)

/-- The `isNumber` member of `defaultConditions`:
`typeof target === 'number'`. -/
def isNumberCond : JCondition :=
  { name := "isNumber"
    action := fun _ _ target _ =>
      match target with
      | .num _ => true
      | _ => false }

/-- The `startsWith` member of `defaultConditions`:
`typeof target === 'string' && target.startsWith(conditionValue)`. -/
def startsWithCond : JCondition :=
  { name := "startsWith"
    action := fun _ _ target conditionValue =>
      match target, conditionValue with
      | .str t, .str c => strStartsWith t c
      | _, _ => false }

/-- One compiled unit of the path-query language.  Condition payloads
are stored as the `Value` produced by the JSON parse of the token's
content, exactly as the source stores `JSON.parse(jsonrepair(content))`. -/
inductive PatternStep : Type where
  | property (name : String)
  | singleStar
  | doubleStar (depth : Option Nat)
  | singleKey (key : String)
  | multiKey (keys : List String)
  | objectCond (conditions : Value)
  | arrayCond (conditions : Value)

/-- JS `s.replace(pat, repl)` with a one-character string pattern:
replace the first occurrence only. -/
def replaceFirstGo (pat repl : Char) : List Char → List Char
  | [] => []
  | c :: cs => if c = pat then repl :: cs else c :: replaceFirstGo pat repl cs

/-- JS `s.replace(pat, repl)` with a one-character string pattern. -/
def replaceFirst (s : String) (pat repl : Char) : String :=
  ⟨replaceFirstGo pat repl s.toList⟩

/-- Result of the source's `isInStringScope` helper (its two field
names are swapped relative to the quote characters they test, which we
preserve). -/
structure StringScope : Type where
  isInSingleQute : Bool
  isInDoubleQute : Bool

/-- `isInStringScope`: wrapped in double-quote characters
(`isInSingleQute`) or in single-quote characters (`isInDoubleQute`). -/
def isInStringScope (value : String) : StringScope :=
  { isInSingleQute := strStartsWith value "\"" && strEndsWith value "\""
    isInDoubleQute := strStartsWith value "'" && strEndsWith value "'" }

/-- The quote-normalization applied to a scalar token, shared by the
single-key and multi-key branches of `createStep`. -/
def normalizeScalar (part : String) (scope : StringScope) : String :=
  if scope.isInDoubleQute then part
  else if scope.isInSingleQute then replaceFirst part '\'' '"'
  else if scope.isInDoubleQute = false && scope.isInSingleQute = false then
    "\"" ++ part ++ "\""
  else replaceFirst part '\'' '"' 

/-- The parenthesized branch of `createStep`, applied to the trimmed
content between the parentheses.  `jp` abstracts the external
`JSON.parse ∘ jsonrepair` used for condition payloads (`none` models a
parse failure). -/
def parenStep (jp : String → Option Value) (token content : String) :
    Except String PatternStep :=
  if content = "*" then .ok .singleStar
  else if strLength content ≥ 2 && strStartsWith content "*" && strEndsWith content "*"
      && (strDropRight (strDrop content 1) 1).toList.all Char.isDigit then
    -- regex ^\*(\d*)\*$ ; an empty capture group is falsy, hence no depth
    let mid := strDropRight (strDrop content 1) 1
    if mid = "" then .ok (.doubleStar none)
    else
      match strToNat? mid with
      | some n => .ok (.doubleStar (some n))
      | none => .ok (.doubleStar none)
  else if strStartsWith content "\x7b" then
    match jp content with
    | some v => .ok (.objectCond v)
    | none => .error ("Invalid object condition: " ++ content)
  else if strStartsWith content "[" then
    match jp content with
    | some v => .ok (.arrayCond v)
    | none => .error ("Invalid array condition: " ++ content)
  else if !strContains content ',' && !strStartsWith content "[" && !strStartsWith content "\x7b" then
    let repairedContent := normalizeScalar content (isInStringScope content)
    .ok (.singleKey (strDropRight (strDrop repairedContent 1) 1))
  else if strContains content ',' && !strStartsWith content "[" && !strStartsWith content "\x7b" then
    let repairedContent := String.intercalate ","
      ((splitChar ',' content).map (fun part => normalizeScalar part (isInStringScope (strTrim part))))
    let keys := (splitChar ',' repairedContent).map (fun s => strDropRight (strDrop (strTrim s) 1) 1)
    .ok (.multiKey keys)
  else .error ("Unrecognized pattern token: " ++ token)

/-- The shortcut flags (`singleStar`, `doubleStar`, `braketScope`). -/
structure Shortcuts : Type where
  singleStar : Bool
  doubleStar : Bool
  braketScope : Bool

/-- `createStep(token, options)`: the parenthesized branch, the three
shortcut rewrites (which re-enter the parenthesized branch on the
wrapped token), and the plain-property fallback. -/
def createStep (jp : String → Option Value) (shortcuts : Shortcuts)
    (token : String) : Except String PatternStep :=
  if strStartsWith token "(" && strEndsWith token ")" then
    parenStep jp token (strTrim (strDropRight (strDrop token 1) 1))
  else if shortcuts.singleStar == true && strTrim token == "*" then
    parenStep jp "(*)" "*"
  else if shortcuts.doubleStar == true && strTrim token == "**" then
    parenStep jp "(**)" "**"
  else if shortcuts.braketScope && strStartsWith (strTrim token) "[" && strEndsWith (strTrim token) "]" then
    let repairedToken := replaceFirst (replaceFirst (strTrim token) '[' '(') ']' ')'
    if strStartsWith repairedToken "(" && strEndsWith repairedToken ")" then
      parenStep jp repairedToken (strTrim (strDropRight (strDrop repairedToken 1) 1))
    else .ok (.property repairedToken)
  else .ok (.property token)

/-- The left-to-right scan of `parsePattern`: toggles the quote flag on
an unescaped `"`, tracks parenthesis depth outside quotes, splits on a
top-level `.`, and classifies each nonempty token with `createStep`. -/
def parseLoop (jp : String → Option Value) (shortcuts : Shortcuts) :
    List Char → Option Char → String → Int → Bool → List PatternStep →
    Except String (List PatternStep)
  | [], _, current, _, _, steps =>
      if current ≠ "" then do
        let st ← createStep jp shortcuts current
        .ok (steps ++ [st])
      else .ok steps
  | c :: rest, prev, current, depth, inQuotes, steps =>
      let q := if c == '"' && prev != some '\\' then !inQuotes else inQuotes
      let d1 := if !q && c == '(' then depth + 1 else depth
      let d2 := if !q && c == ')' then d1 - 1 else d1
      if !q && c == '.' && d2 == 0 then
        if current ≠ "" then do
          let st ← createStep jp shortcuts current
          parseLoop jp shortcuts rest (some c) "" d2 q (steps ++ [st])
        else parseLoop jp shortcuts rest (some c) "" d2 q steps
      else parseLoop jp shortcuts rest (some c) (current.push c) d2 q steps

/-- `parsePattern(pattern, options)`: compile a pattern string into its
step sequence (or a thrown error). -/
def parsePattern (jp : String → Option Value) (shortcuts : Shortcuts)
    (pattern : String) : Except String (List PatternStep) :=
  parseLoop jp shortcuts pattern.toList none "" 0 false []

/-- A frontier member: current node, parent reference, key in parent,
accumulated path (the synthetic root has `parent = key = none`). -/
structure TNode : Type where
  node : Value
  parent : Option Value
  key : Option Key
  path : List Key

/-- The children a star step enumerates: array elements with numeric
indices (`forEach`), object entries with string keys (`Object.entries`). -/
def childrenOf : Value → List (Key × Value)
  | .arr xs => xs.enum.map (fun p => (Key.idx p.1, p.2))
  | .obj es => es.map (fun e => (Key.str e.1, e.2))
  | _ => []

/-- `Object.entries(x)`: array elements keyed by the decimal string of
their index, object entries as-is, characters of a string by index,
and `[]` for the remaining primitives. -/
def entriesJS : Value → List (String × Value)
  | .arr xs => xs.enum.map (fun p => (toString p.1, p.2))
  | .obj es => es
  | .str s => s.toList.enum.map (fun p => (toString p.1, Value.str (String.singleton p.2)))
  | _ => []

/-- `name in node` followed by `node[name]`, restricted to own
(index/entry) properties: object entry lookup, or a canonical decimal
array index. -/
def getOwn : Value → String → Option Value
  | .obj es, k => (es.find? (fun e => e.1 == k)).map (fun e => e.2)
  | .arr xs, k =>
      match strToNat? k with
      | some i => if toString i = k then xs[i]? else none
      | none => none
  | _, _ => none

theorem Value.vsize_pos (v : Value) : 0 < v.vsize := by
  cases v <;> simp [Value.vsize]

theorem Value.vsizeList_eq (xs : List Value) :
    Value.vsizeList xs = xs.length + (xs.map Value.vsize).sum := by
  induction xs with
  | nil => simp [Value.vsizeList]
  | cons v vs ih => simp [Value.vsizeList, ih]; omega

theorem Value.vsizeEntries_eq (es : List (String × Value)) :
    Value.vsizeEntries es = es.length + (es.map (fun e => Value.vsize e.2)).sum := by
  induction es with
  | nil => simp [Value.vsizeEntries]
  | cons e es ih => simp [Value.vsizeEntries, ih]; omega

theorem enum_map_snd_f {α β : Type} (f : α → β) (xs : List α) :
    xs.enum.map (fun p => f p.2) = xs.map f := by
  rw [show (fun p : Nat × α => f p.2) = f ∘ Prod.snd from rfl, ← List.map_map,
    List.enum_map_snd]

/-- The children of a node are strictly smaller than the node. -/
theorem childrenOf_vsize_lt (v : Value) :
    (((childrenOf v).map (fun kc => Value.vsize kc.2)).sum) < v.vsize := by
  cases v with
  | arr xs =>
      have h : ((childrenOf (.arr xs)).map (fun kc => Value.vsize kc.2)) = xs.map Value.vsize := by
        simp only [childrenOf, List.map_map, Function.comp]
        exact enum_map_snd_f Value.vsize xs
      rw [h, Value.vsize, Value.vsizeList_eq]
      omega
  | obj es =>
      have h : ((childrenOf (.obj es)).map (fun kc => Value.vsize kc.2))
          = es.map (fun e => Value.vsize e.2) := by
        simp [childrenOf, List.map_map, Function.comp]
      rw [h, Value.vsize, Value.vsizeEntries_eq]
      omega
  | null => simp [childrenOf, Value.vsize]
  | bool b => simp [childrenOf, Value.vsize]
  | num n => simp [childrenOf, Value.vsize]
  | str s => simp [childrenOf, Value.vsize]

/-- A node of the per-member double-star expansion queue. -/
structure DSNode : Type where
  node : Value
  parent : Option Value
  key : Option Key
  path : List Key
  depth : Nat

/-- Termination measure of the double-star queue. -/
def dsMeasure (q : List DSNode) : Nat :=
  (q.map (fun n => Value.vsize n.node)).sum

/-- `step.depth !== undefined && d >= step.depth`. -/
def dsStop (stepDepth : Option Nat) (d : Nat) : Bool :=
  match stepDepth with
  | some m => d ≥ m
  | none => false

/-- The queue entries pushed for the children of a dequeued node. -/
def dsKids (v : Value) (path : List Key) (d : Nat) : List DSNode :=
  (childrenOf v).map (fun kc => ⟨kc.2, some v, some kc.1, path ++ [kc.1], d + 1⟩)

theorem dsMeasure_dsKids_lt (v : Value) (path : List Key) (d : Nat) :
    dsMeasure (dsKids v path d) < v.vsize := by
  have h := childrenOf_vsize_lt v
  simpa [dsMeasure, dsKids, List.map_map, Function.comp] using h

/-- The breadth-first double-star expansion: dequeue, emit, and (unless
the depth bound is reached) enqueue the children of a container. -/
def dsRun (stepDepth : Option Nat) : List DSNode → List TNode
  | [] => []
  | x :: q =>
      ⟨x.node, x.parent, x.key, x.path⟩ ::
      (if dsStop stepDepth x.depth then dsRun stepDepth q
       else if x.node.isContainer then dsRun stepDepth (q ++ dsKids x.node x.path x.depth)
       else dsRun stepDepth q)
termination_by q => dsMeasure q
decreasing_by
  · have := x.node.vsize_pos
    simp [dsMeasure]
    omega
  · have h1 := dsMeasure_dsKids_lt x.node x.path x.depth
    simp [dsMeasure] at h1 ⊢
    omega
  · have := x.node.vsize_pos
    simp [dsMeasure]
    omega

/-- `Object.entries(step.conditions).every(...)`: short-circuiting
conjunction of the condition pairs over one candidate entry. -/
def allSat (injected : List JCondition) (pairs : List (String × Value))
    (k : String) (v : Value) : Except String Bool :=
  match pairs with
  | [] => .ok true
  | p :: rest => do
      let b ← evaluateCondition p.1 p.2 (Value.str k) v injected
      if b then allSat injected rest k v else pure false

/-- `step.conditions.some(set => ...every...)`: short-circuiting
disjunction over the condition groups. -/
def anySat (injected : List JCondition) (groups : List Value)
    (k : String) (v : Value) : Except String Bool :=
  match groups with
  | [] => .ok false
  | g :: rest => do
      let b ← allSat injected (entriesJS g) k v
      if b then pure true else anySat injected rest k v

/-- The `forEach`-and-push loop of the condition cases: keep the
entries whose test returns true, aborting on a thrown evaluation. -/
def condFilterE (test : String → Value → Except String Bool) :
    List (String × Value) → Except String (List (String × Value))
  | [] => .ok []
  | e :: rest => do
      let b ← test e.1 e.2
      let r ← condFilterE test rest
      pure (if b then e :: r else r)

/-- The frontier member emitted for a child entry. -/
def mkChild (parentV : Value) (path : List Key) (k : Key) (v : Value) : TNode :=
  ⟨v, some parentV, some k, path ++ [k]⟩

/-- One case of the `switch (step.type)` applied to one frontier
member (non-containers are dropped by the loop's guard). -/
def applyStepToNode (injected : List JCondition) (step : PatternStep)
    (t : TNode) : Except String (List TNode) :=
  if !t.node.isContainer then .ok [] else
  match step with
  | .property name =>
      match getOwn t.node name with
      | some v => .ok [mkChild t.node t.path (.str name) v]
      | none => .ok []
  | .singleStar =>
      .ok ((childrenOf t.node).map (fun kc => mkChild t.node t.path kc.1 kc.2))
  | .doubleStar d =>
      .ok (dsRun d [⟨t.node, t.parent, t.key, t.path, 0⟩])
  | .singleKey k =>
      match getOwn t.node k with
      | some v => .ok [mkChild t.node t.path (.str k) v]
      | none => .ok []
  | .multiKey ks =>
      .ok (ks.foldl (fun acc k =>
        match getOwn t.node k with
        | some v => acc ++ [mkChild t.node t.path (.str k) v]
        | none => acc) [])
  | .objectCond cm => do
      let kept ← condFilterE (fun k v => allSat injected (entriesJS cm) k v) (entriesJS t.node)
      pure (kept.map (fun e => mkChild t.node t.path (.str e.1) e.2))
  | .arrayCond cm =>
      match cm with
      | .arr gs => do
          let kept ← condFilterE (fun k v => anySat injected gs k v) (entriesJS t.node)
          pure (kept.map (fun e => mkChild t.node t.path (.str e.1) e.2))
      | _ => .error "step.conditions.some is not a function"

/-- The inner `for (const {...} of currentNodes)` loop: apply the step
to every frontier member, concatenating emissions in order. -/
def stepFrontier (injected : List JCondition) (step : PatternStep) :
    List TNode → Except String (List TNode)
  | [] => .ok []
  | t :: rest => do
      let a ← applyStepToNode injected step t
      let b ← stepFrontier injected step rest
      pure (a ++ b)

/-- The outer `for (const step of steps)` loop. -/
def runSteps (injected : List JCondition) :
    List PatternStep → List TNode → Except String (List TNode)
  | [], ts => .ok ts
  | s :: rest, ts => do
      let ts' ← stepFrontier injected s ts
      runSteps injected rest ts'

/-- The root frontier member a pattern starts from. -/
def rootNode (data : Value) : TNode := ⟨data, none, none, []⟩

/-- Compile one pattern and run it against `data`; the returned list
holds exactly the frontier members a callback fires for (the root,
whose key is the `null` sentinel, is skipped). -/
def traverseOne (jp : String → Option Value) (injected : List JCondition)
    (shortcuts : Shortcuts) (data : Value) (pattern : String) :
    Except String (List TNode) := do
  let steps ← parsePattern jp shortcuts pattern
  let fin ← runSteps injected steps [rootNode data]
  pure (fin.filter (fun t => t.key.isSome))

/-- Process a batch of patterns in order against the same tree,
collecting per-pattern callback deliveries; an exception while
handling pattern `i` prevents every later pattern from running
(callback side effects are not modelled). -/
def traverseCollect (jp : String → Option Value) (injected : List JCondition)
    (shortcuts : Shortcuts) (data : Value) :
    List String → Except String (List (List TNode))
  | [] => .ok []
  | p :: rest => do
      let f ← traverseOne jp injected shortcuts data p
      let r ← traverseCollect jp injected shortcuts data rest
      pure (f :: r)

/-- The shortcut defaults merged by `traverseIn`. -/
def defaultShortcuts : Shortcuts :=
  { singleStar := true, doubleStar := true, braketScope := false }

/-- JS truthiness of a value, as used by the `if (parent && ...)`
guards of the mutation surface. -/
def jsTruthy : Value → Bool
  | .null => false
  | .bool b => b
  | .num n => n != 0
  | .str s => s != ""
  | .arr _ => true
  | .obj _ => true

/-- `Array.isArray`. -/
def isArrayV : Value → Bool
  | .arr _ => true
  | _ => false

/-- The property name a `string | number` key denotes on an object
parent (JS coerces a numeric key to its decimal string). -/
def keyPropName : Key → String
  | .str s => s
  | .idx n => toString n

/-- `parent[k] = v` on an object: overwrite in place if the key
exists, otherwise append the new entry. -/
def objSet (es : List (String × Value)) (k : String) (v : Value) :
    List (String × Value) :=
  if es.any (fun e => e.1 == k) then es.map (fun e => if e.1 == k then (k, v) else e)
  else es ++ [(k, v)]

/-- `delete parent[k]` on an object. -/
def objDelete (es : List (String × Value)) (k : String) :
    List (String × Value) :=
  es.filter (fun e => !(e.1 == k))

/-- `setKey(newKey)`: `parent[newKey] = node; delete parent[key]` on a
truthy non-array parent, otherwise a thrown error.  A returned `.ok`
carries the parent's new contents; an `.error` performs no mutation. -/
def jsSetKey (parent : Option Value) (key : Key) (node : Value)
    (newKey : String) : Except String Value :=
  match parent with
  | none => .error "Cannot rename array elements or root node"
  | some p =>
      if jsTruthy p && !isArrayV p then
        match p with
        | .obj es => .ok (.obj (objDelete (objSet es newKey node) (keyPropName key)))
        | other => .ok other
      else .error "Cannot rename array elements or root node"

/-- `remove()`: `delete parent[key]` on a truthy non-array parent,
otherwise a thrown error. -/
def jsRemove (parent : Option Value) (key : Key) : Except String Value :=
  match parent with
  | none => .error "Cannot rename array elements or root node"
  | some p =>
      if jsTruthy p && !isArrayV p then
        match p with
        | .obj es => .ok (.obj (objDelete es (keyPropName key)))
        | other => .ok other
      else .error "Cannot rename array elements or root node"

/-- `removeNears()`: delete every entry of a truthy non-array parent
other than `key`, otherwise a thrown error. -/
def jsRemoveNears (parent : Option Value) (key : Key) : Except String Value :=
  match parent with
  | none => .error "Cannot rename array elements or root node"
  | some p =>
      if jsTruthy p && !isArrayV p then
        match p with
        | .obj es => .ok (.obj (es.filter (fun e => e.1 == keyPropName key)))
        | other => .ok other
      else .error "Cannot rename array elements or root node"

/-- `setValue(newValue)`: overwrite `parent[key]` in place (array
index assignment or object key assignment). -/
def jsSetValue (parent : Option Value) (key : Key) (newValue : Value) :
    Except String Value :=
  match parent with
  | none => .error "Cannot set value on root node"
  | some p =>
      if jsTruthy p then
        match p with
        | .arr xs =>
            match key with
            | .idx i => .ok (.arr (xs.set i newValue))
            | .str s =>
                match strToNat? s with
                | some i => if toString i = s then .ok (.arr (xs.set i newValue)) else .ok (.arr xs)
                | none => .ok (.arr xs)
        | .obj es => .ok (.obj (objSet es (keyPropName key) newValue))
        | other => .ok other
      else .error "Cannot set value on root node"

theorem objDelete_objSet_self (es : List (String × Value)) (k : String) (v : Value) :
    objDelete (objSet es k v) k = objDelete es k := by
  unfold objSet objDelete
  by_cases h : es.any (fun e => e.1 == k)
  · simp only [h, if_true]
    clear h
    induction es with
    | nil => rfl
    | cons e es ih =>
        by_cases hk : e.1 = k
        · simpa [hk] using ih
        · simpa [hk] using ih
  · simp [h]

/-- C1 counterexample: for the bare spec `"isNumber"` on a string key
and numeric value, the code returns `false` (it passed the key as the
target), while the value-targeted predicate returns `true`; so a bare
condition name does not select the child's value as target. -/
theorem C1_counterexample :
    evaluateCondition "isNumber" Value.null (Value.str "a") (Value.num 5) [isNumberCond]
      = .ok false
    ∧ isNumberCond.action (Value.str "a") (Value.num 5) (Value.num 5) Value.null = true :=
  ⟨rfl, rfl⟩

/-- C1 amended: for every condition spec containing no `.` (and no
leading `!`, and not itself ending in the letters `value`), the looked
up predicate receives the child's key — not its value — as the target
argument. -/
theorem C1_amended (spec : String) (arg key value : Value)
    (conds : List JCondition) (c : JCondition)
    (h1 : splitDot spec = [spec])
    (h2 : strEndsWith spec "value" = false)
    (h3 : strStartsWith spec "!" = false)
    (h4 : conds.find? (fun cn => cn.name == spec) = some c) :
    evaluateCondition spec arg key value conds = .ok (c.action key value key arg) := by
  simp [evaluateCondition, h1, h2, h3, h4]

theorem C1_amended_witness :
    evaluateCondition "isNumber" Value.null (Value.str "a") (Value.num 5) [isNumberCond]
      = .ok (isNumberCond.action (Value.str "a") (Value.num 5) (Value.str "a") Value.null) :=
  C1_amended "isNumber" Value.null (Value.str "a") (Value.num 5) [isNumberCond]
    isNumberCond rfl rfl rfl rfl

/-- C2 counterexample: compiling the pattern `a.(` (unterminated
parenthesis) does not raise a parse error — it succeeds, classifying
the dangling `(` as a plain property step. -/
theorem C2_counterexample :
    parsePattern (fun _ => none) defaultShortcuts "a.("
      = .ok [.property "a", .property "("] := rfl

/-- C2 amended: for every JSON-parsing oracle, compiling `a.(` yields
`[Property "a", Property "("]` rather than an error, and in a batch
`["a.(", "b"]` against `{b: 1}` the malformed pattern simply matches
nothing while the following pattern's callback still fires. -/
theorem C2_amended (jp : String → Option Value) :
    parsePattern jp defaultShortcuts "a.(" = .ok [.property "a", .property "("]
    ∧ traverseCollect jp [] defaultShortcuts (Value.obj [("b", Value.num 1)]) ["a.(", "b"]
        = .ok [[], [⟨Value.num 1, some (Value.obj [("b", Value.num 1)]),
                     some (Key.str "b"), [Key.str "b"]⟩]] :=
  ⟨rfl, rfl⟩

/-- C3 counterexample: the digit-before-the-stars form `(2**)` does
not compile to a depth-bounded double star — the unused
`regxOfNumberBeforeDubble` shape falls through to the single-key
branch, producing `SingleKey "2**"`. -/
theorem C3_counterexample :
    createStep (fun _ => none) defaultShortcuts "(2**)" = .ok (.singleKey "2**") := rfl

/-- C3 amended: the depth-bounded deep wildcard is written `(*N*)`
(digit between the stars): for every digit `N`, compiling `(*N*)`
yields a DoubleStar step with depth bound `N`. -/
theorem C3_amended (jp : String → Option Value) (n : Nat) (h : n < 10) :
    createStep jp defaultShortcuts ("(*" ++ toString n ++ "*)")
      = .ok (.doubleStar (some n)) := by
  interval_cases n <;> rfl

theorem C3_amended_witness :
    2 < 10
    ∧ createStep (fun _ => none) defaultShortcuts "(*2*)" = .ok (.doubleStar (some 2)) :=
  ⟨by decide, C3_amended (fun _ => none) 2 (by decide)⟩

/-- C5: the two-part negation `!value.startsWith` does complement
`value.startsWith`, but the bare negated form `!startsWith` — which
the source's own doc comment lists as supported — throws
`Condition not found: !startsWith` because the `!` is not stripped
before the registry lookup. -/
theorem C5_code_bug_eval :
    evaluateCondition "!startsWith" (Value.str "x") (Value.str "k") (Value.str "xy")
        [startsWithCond] = .error "Condition not found: !startsWith"
    ∧ evaluateCondition "value.startsWith" (Value.str "x") (Value.str "k") (Value.str "xy")
        [startsWithCond] = .ok true
    ∧ evaluateCondition "!value.startsWith" (Value.str "x") (Value.str "k") (Value.str "xy")
        [startsWithCond] = .ok false :=
  ⟨rfl, rfl, rfl⟩

/-- C8: each of `setKey`, `remove` and `removeNears` on an array
parent throws (an `.error` result carries no updated container, so the
array — and hence the tree — is untouched). -/
theorem C8_array_parent_unsupported (xs : List Value) (key : Key) (node : Value)
    (newKey : String) :
    jsSetKey (some (.arr xs)) key node newKey
        = .error "Cannot rename array elements or root node"
    ∧ jsRemove (some (.arr xs)) key = .error "Cannot rename array elements or root node"
    ∧ jsRemoveNears (some (.arr xs)) key
        = .error "Cannot rename array elements or root node" := by
  refine ⟨?_, ?_, ?_⟩ <;> simp [jsSetKey, jsRemove, jsRemoveNears, jsTruthy, isArrayV]

/-- C9: `setKey(k)` with the new key equal to the existing key `k`
deletes the entry from the object parent entirely (the assignment is
followed by an unconditional delete of `k`), instead of leaving the
entry unchanged. -/
theorem C9_setKey_same_key_deletes (es : List (String × Value)) (k : String)
    (node : Value) (h : (es.find? (fun e => e.1 == k)).isSome = true) :
    ∃ es', jsSetKey (some (.obj es)) (.str k) node k = .ok (.obj es')
      ∧ es'.find? (fun e => e.1 == k) = none
      ∧ es' = es.filter (fun e => !(e.1 == k)) := by
  refine ⟨objDelete (objSet es k node) (keyPropName (.str k)), ?_, ?_, ?_⟩
  · simp [jsSetKey, jsTruthy, isArrayV]
  · rw [keyPropName, objDelete_objSet_self]
    rw [List.find?_eq_none]
    intro x hx
    simp [objDelete] at hx
    simp [hx.2]
  · rw [keyPropName, objDelete_objSet_self]
    rfl

theorem C9_setKey_same_key_deletes_witness :
    (([("a", Value.num 1)].find? (fun e => e.1 == "a")).isSome = true)
    ∧ ∃ es', jsSetKey (some (.obj [("a", Value.num 1)])) (.str "a") (Value.num 1) "a"
          = .ok (.obj es')
        ∧ es'.find? (fun e => e.1 == "a") = none
        ∧ es' = [("a", Value.num 1)].filter (fun e => !(e.1 == "a")) :=
  ⟨rfl, C9_setKey_same_key_deletes [("a", Value.num 1)] "a" (Value.num 1) rfl⟩

theorem allSat_ok_true_iff (injected : List JCondition)
    (pairs : List (String × Value)) (k : String) (v : Value) :
    allSat injected pairs k v = .ok true ↔
      ∀ p ∈ pairs, evaluateCondition p.1 p.2 (Value.str k) v injected = .ok true := by
  induction pairs with
  | nil => simp [allSat]
  | cons p rest ih =>
      simp only [allSat]
      cases he : evaluateCondition p.1 p.2 (Value.str k) v injected with
      | error e => simp [he, Bind.bind, Except.bind]
      | ok b =>
          cases b with
          | true => simpa [he, Bind.bind, Except.bind] using ih
          | false => simp [he, Bind.bind, Except.bind, pure, Except.pure]
  
theorem anySat_ok_true_iff (injected : List JCondition) (groups : List Value)
    (k : String) (v : Value)
    (hok : ∀ g ∈ groups, ∃ b, allSat injected (entriesJS g) k v = Except.ok b) :
    anySat injected groups k v = .ok true ↔
      ∃ g ∈ groups, allSat injected (entriesJS g) k v = .ok true := by
  induction groups with
  | nil => simp [anySat]
  | cons g rest ih =>
      obtain ⟨b, hb⟩ := hok g (List.mem_cons_self g rest)
      have ihr := ih (fun g' hg' => hok g' (List.mem_cons_of_mem g hg'))
      simp only [anySat]
      cases b with
      | true => simp [hb, Bind.bind, Except.bind, pure, Except.pure]
      | false =>
          rw [hb]
          simp only [Bind.bind, Except.bind, if_neg Bool.false_ne_true]
          rw [ihr]
          constructor
          · rintro ⟨g', hg', hsat⟩
            exact ⟨g', List.mem_cons_of_mem g hg', hsat⟩
          · rintro ⟨g', hg', hsat⟩
            rcases List.mem_cons.mp hg' with hgg | hgg
            · subst hgg
              rw [hb] at hsat
              cases hsat
            · exact ⟨g', hgg, hsat⟩

theorem condFilterE_mem (test : String → Value → Except String Bool)
    (l : List (String × Value)) (r : List (String × Value))
    (h : condFilterE test l = .ok r) (e : String × Value) :
    e ∈ r ↔ e ∈ l ∧ test e.1 e.2 = .ok true := by
  induction l generalizing r with
  | nil =>
      simp only [condFilterE] at h
      cases h
      simp
  | cons x rest ih =>
      simp only [condFilterE] at h
      cases ht : test x.1 x.2 with
      | error msg => simp [ht, Bind.bind, Except.bind] at h
      | ok b =>
          rw [ht] at h
          cases hr : condFilterE test rest with
          | error msg => simp [hr, Bind.bind, Except.bind] at h
          | ok r' =>
              rw [hr] at h
              simp only [Bind.bind, Except.bind, pure, Except.pure] at h
              cases h
              have hmem := ih r' hr
              by_cases hex : e = x
              · subst hex
                cases b with
                | true => simp [ht, hmem]
                | false =>
                    simp only [if_neg Bool.false_ne_true, hmem]
                    simp [ht]
              · cases b with
                | true => simp [List.mem_cons, hex, hmem]
                | false => simp [List.mem_cons, hex, hmem]

theorem mkChild_inj (n : Value) (path : List Key) (a e : String × Value)
    (h : mkChild n path (.str a.1) a.2 = mkChild n path (.str e.1) e.2) : a = e := by
  simp only [mkChild, TNode.mk.injEq] at h
  obtain ⟨h1, -, h2, -⟩ := h
  have h3 := Key.str.inj (Option.some.inj h2)
  exact Prod.ext h3 h1

theorem mem_map_mkChild (n : Value) (path : List Key)
    (kept : List (String × Value)) (e : String × Value) :
    mkChild n path (.str e.1) e.2
        ∈ kept.map (fun x => mkChild n path (.str x.1) x.2) ↔ e ∈ kept := by
  constructor
  · intro hm
    rcases List.mem_map.mp hm with ⟨a, ha, hae⟩
    rwa [mkChild_inj n path a e hae] at ha
  · intro hm
    exact List.mem_map_of_mem _ hm

theorem condFilterE_map_ok (test : String → Value → Except String Bool)
    (l : List (String × Value)) (f : List (String × Value) → List TNode)
    (ns : List TNode)
    (h : (do
        let kept ← condFilterE test l
        pure (f kept) : Except String (List TNode)) = .ok ns) :
    ∃ kept, condFilterE test l = .ok kept ∧ ns = f kept := by
  cases hk : condFilterE test l with
  | error msg => rw [hk] at h; simp [Bind.bind, Except.bind] at h
  | ok kept =>
      rw [hk] at h
      simp only [Bind.bind, Except.bind, pure, Except.pure] at h
      cases h
      exact ⟨kept, rfl, rfl⟩

/-- C6: a candidate entry satisfies an ObjectCond mapping iff every
`(spec, argument)` pair evaluates to true (an empty mapping matches
every entry), and an ArrayCond group sequence iff at least one group's
full conjunction holds (an empty sequence matches no entry, and the
disjunction reading is stated under the proviso that the involved
evaluations return rather than throw); the nodes a condition step
emits for a container are exactly the container's satisfying entries. -/
theorem C6_condition_algebra (injected : List JCondition) (cm : Value)
    (gs : List Value) (k : String) (v : Value) (n : Value) (pr : Option Value)
    (k0 : Option Key) (path : List Key) :
    (allSat injected (entriesJS cm) k v = .ok true ↔
      ∀ p ∈ entriesJS cm, evaluateCondition p.1 p.2 (Value.str k) v injected = .ok true)
    ∧ allSat injected (entriesJS (Value.obj [])) k v = .ok true
    ∧ ((∀ g ∈ gs, ∃ b, allSat injected (entriesJS g) k v = Except.ok b) →
        (anySat injected gs k v = .ok true ↔
          ∃ g ∈ gs, ∀ p ∈ entriesJS g,
            evaluateCondition p.1 p.2 (Value.str k) v injected = .ok true))
    ∧ anySat injected [] k v = .ok false
    ∧ (n.isContainer = true → ∀ ns,
        applyStepToNode injected (.objectCond cm) ⟨n, pr, k0, path⟩ = .ok ns →
        ∀ e : String × Value,
          (mkChild n path (.str e.1) e.2 ∈ ns ↔
            e ∈ entriesJS n ∧ allSat injected (entriesJS cm) e.1 e.2 = .ok true))
    ∧ (n.isContainer = true → ∀ ns,
        applyStepToNode injected (.arrayCond (.arr gs)) ⟨n, pr, k0, path⟩ = .ok ns →
        ∀ e : String × Value,
          (mkChild n path (.str e.1) e.2 ∈ ns ↔
            e ∈ entriesJS n ∧ anySat injected gs e.1 e.2 = .ok true)) := by
  refine ⟨allSat_ok_true_iff injected (entriesJS cm) k v, by simp [entriesJS, allSat], ?_, rfl, ?_, ?_⟩
  · intro hok
    rw [anySat_ok_true_iff injected gs k v hok]
    exact exists_congr fun g =>
      and_congr_right fun _ => allSat_ok_true_iff injected (entriesJS g) k v
  · intro hc ns h e
    simp only [applyStepToNode, hc, Bool.not_true, Bool.false_eq_true, if_false] at h
    obtain ⟨kept, hk, hns⟩ := condFilterE_map_ok _ _ _ ns h
    subst hns
    rw [mem_map_mkChild, condFilterE_mem _ _ _ hk]
  · intro hc ns h e
    simp only [applyStepToNode, hc, Bool.not_true, Bool.false_eq_true, if_false] at h
    obtain ⟨kept, hk, hns⟩ := condFilterE_map_ok _ _ _ ns h
    subst hns
    rw [mem_map_mkChild, condFilterE_mem _ _ _ hk]

theorem C6_condition_algebra_witness :
    (allSat [isNumberCond] (entriesJS (Value.obj [("value.isNumber", Value.null)])) "k"
        (Value.num 3) = .ok true ↔
      ∀ p ∈ entriesJS (Value.obj [("value.isNumber", Value.null)]),
        evaluateCondition p.1 p.2 (Value.str "k") (Value.num 3) [isNumberCond] = .ok true)
    ∧ allSat [isNumberCond] (entriesJS (Value.obj [])) "k" (Value.num 3) = .ok true
    ∧ ((∀ g ∈ [Value.obj [("value.isNumber", Value.null)]], ∃ b,
          allSat [isNumberCond] (entriesJS g) "k" (Value.num 3) = Except.ok b) →
        (anySat [isNumberCond] [Value.obj [("value.isNumber", Value.null)]] "k"
            (Value.num 3) = .ok true ↔
          ∃ g ∈ [Value.obj [("value.isNumber", Value.null)]], ∀ p ∈ entriesJS g,
            evaluateCondition p.1 p.2 (Value.str "k") (Value.num 3) [isNumberCond] = .ok true))
    ∧ anySat [isNumberCond] [] "k" (Value.num 3) = .ok false
    ∧ ((Value.obj [("a", Value.num 7)]).isContainer = true → ∀ ns,
        applyStepToNode [isNumberCond] (.objectCond (Value.obj [("value.isNumber", Value.null)]))
            ⟨Value.obj [("a", Value.num 7)], none, none, []⟩ = .ok ns →
        ∀ e : String × Value,
          (mkChild (Value.obj [("a", Value.num 7)]) [] (.str e.1) e.2 ∈ ns ↔
            e ∈ entriesJS (Value.obj [("a", Value.num 7)])
            ∧ allSat [isNumberCond] (entriesJS (Value.obj [("value.isNumber", Value.null)]))
                e.1 e.2 = .ok true))
    ∧ ((Value.obj [("a", Value.num 7)]).isContainer = true → ∀ ns,
        applyStepToNode [isNumberCond]
            (.arrayCond (.arr [Value.obj [("value.isNumber", Value.null)]]))
            ⟨Value.obj [("a", Value.num 7)], none, none, []⟩ = .ok ns →
        ∀ e : String × Value,
          (mkChild (Value.obj [("a", Value.num 7)]) [] (.str e.1) e.2 ∈ ns ↔
            e ∈ entriesJS (Value.obj [("a", Value.num 7)])
            ∧ anySat [isNumberCond] [Value.obj [("value.isNumber", Value.null)]]
                e.1 e.2 = .ok true)) :=
  C6_condition_algebra [isNumberCond] (Value.obj [("value.isNumber", Value.null)])
    [Value.obj [("value.isNumber", Value.null)]] "k" (Value.num 3)
    (Value.obj [("a", Value.num 7)]) none none []

/-- The two step kinds that address exactly one literal key. -/
def PatternStep.isFixed : PatternStep → Bool
  | .property _ => true
  | .singleKey _ => true
  | _ => false

/-- The path segment a Property/SingleKey step records. -/
def stepName : PatternStep → Key
  | .property n => .str n
  | .singleKey k => .str k
  | _ => .str ""

theorem runSteps_nil (injected : List JCondition) (steps : List PatternStep) :
    runSteps injected steps [] = .ok [] := by
  induction steps with
  | nil => rfl
  | cons s rest ih =>
      simp only [runSteps, stepFrontier, Bind.bind, Except.bind]
      exact ih

theorem applyStep_fixed (injected : List JCondition) (s : PatternStep) (t : TNode)
    (hs : s.isFixed = true) :
    applyStepToNode injected s t = .ok []
    ∨ ∃ u, applyStepToNode injected s t = .ok [u]
        ∧ u.path = t.path ++ [stepName s] := by
  cases s with
  | property name =>
      by_cases hc : t.node.isContainer
      · cases hg : getOwn t.node name with
        | none => left; simp [applyStepToNode, hc, hg]
        | some v =>
            right
            exact ⟨mkChild t.node t.path (.str name) v,
              by simp [applyStepToNode, hc, hg], rfl⟩
      · left
        simp [applyStepToNode, Bool.not_eq_true] at hc ⊢
        simp [hc]
  | singleKey k =>
      by_cases hc : t.node.isContainer
      · cases hg : getOwn t.node k with
        | none => left; simp [applyStepToNode, hc, hg]
        | some v =>
            right
            exact ⟨mkChild t.node t.path (.str k) v,
              by simp [applyStepToNode, hc, hg], rfl⟩
      · left
        simp [applyStepToNode, Bool.not_eq_true] at hc ⊢
        simp [hc]
  | singleStar => simp [PatternStep.isFixed] at hs
  | doubleStar d => simp [PatternStep.isFixed] at hs
  | multiKey ks => simp [PatternStep.isFixed] at hs
  | objectCond cm => simp [PatternStep.isFixed] at hs
  | arrayCond cm => simp [PatternStep.isFixed] at hs

theorem runSteps_fixed (injected : List JCondition) :
    ∀ (steps : List PatternStep), (∀ s ∈ steps, s.isFixed = true) → ∀ (t : TNode),
    ∃ r, runSteps injected steps [t] = .ok r ∧ r.length ≤ 1
      ∧ ∀ u ∈ r, u.path = t.path ++ steps.map stepName := by
  intro steps
  induction steps with
  | nil =>
      intro _ t
      exact ⟨[t], rfl, by simp, by simp⟩
  | cons s rest ih =>
      intro h t
      have hs : s.isFixed = true := h s (List.mem_cons_self s rest)
      have hrest : ∀ s' ∈ rest, s'.isFixed = true :=
        fun s' hs' => h s' (List.mem_cons_of_mem s hs')
      rcases applyStep_fixed injected s t hs with ha | ⟨u, ha, hu⟩
      · refine ⟨[], ?_, by simp, by simp⟩
        simp only [runSteps, stepFrontier, ha, Bind.bind, Except.bind, pure,
          Except.pure, List.append_nil]
        exact runSteps_nil injected rest
      · obtain ⟨r, hr, hlen, hpath⟩ := ih hrest u
        refine ⟨r, ?_, hlen, ?_⟩
        · simp only [runSteps, stepFrontier, ha, Bind.bind, Except.bind, pure,
            Except.pure, List.append_nil]
          exact hr
        · intro w hw
          simp [hpath w hw, hu]

/-- C7: for every pattern consisting only of Property/SingleKey steps
and every tree, the run never throws, the final frontier holds at most
one node, and a matched node's recorded path is the literal sequence
of the steps' names. -/
theorem C7_fixed_path (injected : List JCondition) (steps : List PatternStep)
    (data : Value) (h : ∀ s ∈ steps, s.isFixed = true) :
    ∃ r, runSteps injected steps [rootNode data] = .ok r ∧ r.length ≤ 1
      ∧ ∀ u ∈ r, u.path = steps.map stepName := by
  obtain ⟨r, hr, hlen, hpath⟩ := runSteps_fixed injected steps h (rootNode data)
  exact ⟨r, hr, hlen, fun u hu => by simpa [rootNode] using hpath u hu⟩

theorem C7_fixed_path_witness :
    (∀ s ∈ [PatternStep.property "a", PatternStep.singleKey "b"], s.isFixed = true)
    ∧ ∃ r, runSteps [] [PatternStep.property "a", PatternStep.singleKey "b"]
          [rootNode (Value.obj [("a", Value.obj [("b", Value.num 1)])])] = .ok r
        ∧ r.length ≤ 1
        ∧ ∀ u ∈ r,
            u.path = [PatternStep.property "a", PatternStep.singleKey "b"].map stepName := by
  refine ⟨?_, C7_fixed_path [] [PatternStep.property "a", PatternStep.singleKey "b"]
    (Value.obj [("a", Value.obj [("b", Value.num 1)])]) ?_⟩ <;>
  · intro s hs
    rcases List.mem_cons.mp hs with rfl | hs1
    · rfl
    rcases List.mem_cons.mp hs1 with rfl | hs2
    · rfl
    cases hs2

theorem condStep_arr_emitted (injected : List JCondition)
    (test : String → Value → Except String Bool) (xs : List Value)
    (n : Value) (path : List Key) (kept : List (String × Value))
    (hk : condFilterE test (entriesJS (Value.arr xs)) = .ok kept)
    (t : TNode) (ht : t ∈ kept.map (fun e => mkChild n path (.str e.1) e.2)) :
    ∃ i : Nat, xs[i]? = some t.node ∧ t.key = some (.str (toString i))
      ∧ t.path = path ++ [.str (toString i)] := by
  rcases List.mem_map.mp ht with ⟨e, he, hte⟩
  have hmem := (condFilterE_mem test _ kept hk e).mp he
  have hin : e ∈ (entriesJS (Value.arr xs)) := hmem.1
  simp only [entriesJS] at hin
  rcases List.mem_map.mp hin with ⟨p, hp, hpe⟩
  have hget : xs[p.1]? = some p.2 := by
    have := List.mem_enum_iff_getElem?.mp hp
    simpa using this
  refine ⟨p.1, ?_, ?_, ?_⟩
  · rw [← hte]
    simpa [mkChild] using congrArg (fun q => q.2) hpe ▸ hget
  · rw [← hte]
    simp [mkChild, ← hpe]
  · rw [← hte]
    simp [mkChild, ← hpe]

/-- C10: condition steps enumerate an array through `Object.entries`,
so the key they hand to each predicate and record on each emitted node
is the decimal string of the index, while SingleStar records the
numeric index itself; hence a key-targeting condition whose predicate
only accepts numeric targets can never match an array entry reached
through a condition step. -/
theorem C10_array_condition_keys (injected : List JCondition) (cm : Value)
    (gs : List Value) (xs : List Value) (pr : Option Value) (k0 : Option Key)
    (path : List Key) (c : JCondition) (spec name : String) (arg v : Value) (s : String)
    (hspec : splitDot spec = ["key", name])
    (hfind : injected.find? (fun cn => cn.name == name) = some c)
    (hnum : ∀ a b t d, c.action a b t d = true → ∃ m, t = Value.num m) :
    (entriesJS (Value.arr xs) = xs.enum.map (fun e => (toString e.1, e.2)))
    ∧ (∀ ns, applyStepToNode injected (.objectCond cm) ⟨.arr xs, pr, k0, path⟩ = .ok ns →
        ∀ t ∈ ns, ∃ i : Nat, xs[i]? = some t.node ∧ t.key = some (.str (toString i))
          ∧ t.path = path ++ [.str (toString i)])
    ∧ (∀ ns, applyStepToNode injected (.arrayCond (.arr gs)) ⟨.arr xs, pr, k0, path⟩ = .ok ns →
        ∀ t ∈ ns, ∃ i : Nat, xs[i]? = some t.node ∧ t.key = some (.str (toString i))
          ∧ t.path = path ++ [.str (toString i)])
    ∧ (applyStepToNode injected .singleStar ⟨.arr xs, pr, k0, path⟩
        = .ok (xs.enum.map (fun e => mkChild (.arr xs) path (.idx e.1) e.2)))
    ∧ evaluateCondition spec arg (Value.str s) v injected = .ok false := by
  refine ⟨rfl, ?_, ?_, ?_, ?_⟩
  · intro ns h t ht
    simp only [applyStepToNode, Value.isContainer, Bool.not_true, Bool.false_eq_true,
      if_false] at h
    obtain ⟨kept, hk, hns⟩ := condFilterE_map_ok _ _ _ ns h
    subst hns
    exact condStep_arr_emitted injected _ xs _ path kept hk t ht
  · intro ns h t ht
    simp only [applyStepToNode, Value.isContainer, Bool.not_true, Bool.false_eq_true,
      if_false] at h
    obtain ⟨kept, hk, hns⟩ := condFilterE_map_ok _ _ _ ns h
    subst hns
    exact condStep_arr_emitted injected _ xs _ path kept hk t ht
  · simp [applyStepToNode, Value.isContainer, childrenOf, List.map_map, Function.comp]
  · have h1 : strStartsWith "key" "!" = false := rfl
    have h2 : strEndsWith "key" "value" = false := rfl
    simp only [evaluateCondition, hspec, List.headD, List.getElem?_cons_succ,
      List.getElem?_cons_zero, Option.getD, h1, h2, hfind, if_false]
    cases hb : c.action (Value.str s) v (Value.str s) arg with
    | false => simpa using hb
    | true =>
        exfalso
        obtain ⟨m, hm⟩ := hnum _ _ _ _ hb
        cases hm

theorem isNumberCond_only_num (a b t d : Value)
    (h : isNumberCond.action a b t d = true) : ∃ m, t = Value.num m := by
  cases t with
  | num m => exact ⟨m, rfl⟩
  | null => exact absurd h (by simp [isNumberCond])
  | bool x => exact absurd h (by simp [isNumberCond])
  | str x => exact absurd h (by simp [isNumberCond])
  | arr x => exact absurd h (by simp [isNumberCond])
  | obj x => exact absurd h (by simp [isNumberCond])

theorem C10_array_condition_keys_witness :
    (splitDot "key.isNumber" = ["key", "isNumber"])
    ∧ ([isNumberCond].find? (fun cn => cn.name == "isNumber") = some isNumberCond)
    ∧ evaluateCondition "key.isNumber" Value.null (Value.str "0") (Value.num 10)
        [isNumberCond] = .ok false :=
  ⟨rfl, rfl,
    (C10_array_condition_keys [isNumberCond] (Value.obj []) [] [Value.num 10]
      none none [] isNumberCond "key.isNumber" "isNumber" Value.null (Value.num 10) "0"
      rfl rfl isNumberCond_only_num).2.2.2.2⟩

/-- No string occurs twice (object key lists of a JS object). -/
def nodupKeysB : List String → Bool
  | [] => true
  | k :: ks => !(ks.contains k) && nodupKeysB ks

mutual

/-- A value is well formed when every object level has pairwise
distinct keys (guaranteed for values built by a JS runtime). -/
def Value.wf : Value → Bool
  | .arr xs => Value.wfList xs
  | .obj es => nodupKeysB (es.map Prod.fst) && Value.wfEntries es
  | _ => true

/-- Well-formedness of every element of an array. -/
def Value.wfList : List Value → Bool
  | [] => true
  | v :: vs => Value.wf v && Value.wfList vs

/-- Well-formedness of every entry value of an object. -/
def Value.wfEntries : List (String × Value) → Bool
  | [] => true
  | e :: es => Value.wf e.2 && Value.wfEntries es

end

theorem Value.wfList_mem {xs : List Value} {v : Value}
    (h : Value.wfList xs = true) (hv : v ∈ xs) : v.wf = true := by
  induction xs with
  | nil => cases hv
  | cons x rest ih =>
      simp only [Value.wfList, Bool.and_eq_true] at h
      rcases List.mem_cons.mp hv with rfl | hv'
      · exact h.1
      · exact ih h.2 hv'

theorem Value.wfEntries_mem {es : List (String × Value)} {e : String × Value}
    (h : Value.wfEntries es = true) (he : e ∈ es) : e.2.wf = true := by
  induction es with
  | nil => cases he
  | cons x rest ih =>
      simp only [Value.wfEntries, Bool.and_eq_true] at h
      rcases List.mem_cons.mp he with rfl | he'
      · exact h.1
      · exact ih h.2 he'

theorem wf_child {v : Value} {kc : Key × Value}
    (hwf : v.wf = true) (h : kc ∈ childrenOf v) : kc.2.wf = true := by
  cases v with
  | arr xs =>
      simp only [childrenOf] at h
      rcases List.mem_map.mp h with ⟨p, hp, hpe⟩
      have : p.2 ∈ xs := by
        have := List.mem_enum_iff_getElem?.mp hp
        exact List.getElem?_mem (by simpa using this)
      have h2 : kc.2 = p.2 := by rw [← hpe]
      rw [h2]
      exact Value.wfList_mem (by simpa [Value.wf] using hwf) this
  | obj es =>
      simp only [childrenOf] at h
      rcases List.mem_map.mp h with ⟨e, he, hee⟩
      have h2 : kc.2 = e.2 := by rw [← hee]
      rw [h2]
      simp only [Value.wf, Bool.and_eq_true] at hwf
      exact Value.wfEntries_mem hwf.2 he
  | null => cases h
  | bool b => cases h
  | num n => cases h
  | str s => cases h

theorem childrenOf_meta_lt (v : Value) :
    (childrenOf v).length + ((childrenOf v).map (fun kc => Value.vsize kc.2)).sum
      < v.vsize := by
  cases v with
  | arr xs =>
      have h : ((childrenOf (.arr xs)).map (fun kc => Value.vsize kc.2)) = xs.map Value.vsize := by
        simp only [childrenOf, List.map_map, Function.comp]
        exact enum_map_snd_f Value.vsize xs
      rw [h]
      simp only [childrenOf, List.length_map, List.enum_length]
      rw [Value.vsize, Value.vsizeList_eq]
      omega
  | obj es =>
      have h : ((childrenOf (.obj es)).map (fun kc => Value.vsize kc.2))
          = es.map (fun e => Value.vsize e.2) := by
        simp [childrenOf, List.map_map, Function.comp]
      rw [h]
      simp only [childrenOf, List.length_map]
      rw [Value.vsize, Value.vsizeEntries_eq]
      omega
  | null => simp [childrenOf, Value.vsize]
  | bool b => simp [childrenOf, Value.vsize]
  | num n => simp [childrenOf, Value.vsize]
  | str s => simp [childrenOf, Value.vsize]

theorem vsize_lt_of_mem_childrenOf {v : Value} {kc : Key × Value}
    (h : kc ∈ childrenOf v) : kc.2.vsize < v.vsize := by
  have h1 : kc.2.vsize ∈ (childrenOf v).map (fun kc => Value.vsize kc.2) :=
    List.mem_map_of_mem _ h
  have h2 : kc.2.vsize ≤ ((childrenOf v).map (fun kc => Value.vsize kc.2)).sum :=
    List.single_le_sum (fun _ _ => Nat.zero_le _) _ h1
  exact lt_of_le_of_lt h2 (childrenOf_vsize_lt v)

/-- Whether a remaining depth budget still allows descending. -/
def budgetExpand : Option Nat → Bool
  | some 0 => false
  | _ => true

/-- Spend one level of a depth budget. -/
def budgetDec : Option Nat → Option Nat
  | some m => some (m - 1)
  | none => none

/-- The remaining budget of a queue entry at absolute depth `d` under
the step's bound. -/
def dsBudget (stepDepth : Option Nat) (d : Nat) : Option Nat :=
  match stepDepth with
  | some m => some (m - d)
  | none => none

mutual

/-- The canonical depth-first enumeration of a node and its
descendants within a depth budget: the node itself, then every
child subtree with one budget level spent. -/
def descUpTo (b : Option Nat) (path : List Key) (v : Value) :
    List (List Key × Value) :=
  (path, v) ::
    (if budgetExpand b then descChildren (budgetDec b) path (childrenOf v) else [])
termination_by 2 * v.vsize
decreasing_by
  have := childrenOf_meta_lt v
  omega

/-- `descUpTo` mapped over a child list. -/
def descChildren (b : Option Nat) (path : List Key) :
    List (Key × Value) → List (List Key × Value)
  | [] => []
  | kc :: rest =>
      descUpTo b (path ++ [kc.1]) kc.2 ++ descChildren b path rest
termination_by l => 2 * ((l.map (fun kc => Value.vsize kc.2)).sum) + l.length + 1
decreasing_by
  · simp only [List.map_cons, List.sum_cons, List.length_cons]
    omega
  · simp only [List.map_cons, List.sum_cons, List.length_cons]
    have := Value.vsize_pos kc.2
    omega

end

/-- Resolve a relative path from a node by successive child lookup. -/
def resolveV : Value → List Key → Option Value
  | v, [] => some v
  | v, k :: ks =>
      match (childrenOf v).find? (fun kc => kc.1 == k) with
      | some kc => resolveV kc.2 ks
      | none => none

theorem descChildren_eq_flatMap (b : Option Nat) (path : List Key)
    (l : List (Key × Value)) :
    descChildren b path l = l.flatMap (fun kc => descUpTo b (path ++ [kc.1]) kc.2) := by
  induction l with
  | nil => simp [descChildren]
  | cons kc rest ih => simp [descChildren, ih]

theorem dsBudget_stop (stepDepth : Option Nat) (d : Nat)
    (h : dsStop stepDepth d = true) : dsBudget stepDepth d = some 0 := by
  cases stepDepth with
  | none => simp [dsStop] at h
  | some m =>
      simp only [dsStop, ge_iff_le, decide_eq_true_eq] at h
      simp [dsBudget, Nat.sub_eq_zero_of_le h]

theorem dsBudget_expand (stepDepth : Option Nat) (d : Nat)
    (h : dsStop stepDepth d = false) :
    budgetExpand (dsBudget stepDepth d) = true
    ∧ budgetDec (dsBudget stepDepth d) = dsBudget stepDepth (d + 1) := by
  cases stepDepth with
  | none => exact ⟨rfl, rfl⟩
  | some m =>
      simp only [dsStop, ge_iff_le, decide_eq_false_iff_not, not_le] at h
      constructor
      · cases hn : m - d with
        | zero => omega
        | succ r => simp [dsBudget, hn, budgetExpand]
      · simp only [dsBudget, budgetDec, Option.some.injEq]
        omega

theorem descUpTo_zero (path : List Key) (v : Value) :
    descUpTo (some 0) path v = [(path, v)] := by
  rw [descUpTo]
  simp [budgetExpand]

theorem childrenOf_eq_nil_of_not_container {v : Value}
    (h : v.isContainer = false) : childrenOf v = [] := by
  cases v <;> first | rfl | simp [Value.isContainer] at h

theorem dsMeasure_cons (x : DSNode) (q : List DSNode) :
    dsMeasure (x :: q) = x.node.vsize + dsMeasure q := by
  simp [dsMeasure]

theorem dsMeasure_append (a b : List DSNode) :
    dsMeasure (a ++ b) = dsMeasure a + dsMeasure b := by
  simp [dsMeasure]

theorem dsKids_flatMap (stepDepth : Option Nat) (v : Value) (path : List Key) (d : Nat) :
    ((dsKids v path d).flatMap
        (fun x => descUpTo (dsBudget stepDepth x.depth) x.path x.node))
      = descChildren (dsBudget stepDepth (d + 1)) path (childrenOf v) := by
  rw [descChildren_eq_flatMap, dsKids]
  induction childrenOf v with
  | nil => rfl
  | cons kc rest ih => simp only [List.map_cons, List.flatMap_cons, ih]

/-- The queue-based breadth-first expansion emits, up to order, exactly
the depth-first enumeration of each queue entry within its remaining
budget. -/
theorem dsRun_perm (stepDepth : Option Nat) (q : List DSNode) :
    List.Perm ((dsRun stepDepth q).map (fun t => (t.path, t.node)))
      (q.flatMap (fun x => descUpTo (dsBudget stepDepth x.depth) x.path x.node)) := by
  generalize hn : dsMeasure q = n
  induction n using Nat.strong_induction_on generalizing q with
  | _ n ih =>
      cases q with
      | nil => simp [dsRun]
      | cons x t =>
          have hsize := Value.vsize_pos x.node
          rw [dsRun]
          by_cases hstop : dsStop stepDepth x.depth
          · rw [if_pos hstop]
            have hz := dsBudget_stop stepDepth x.depth hstop
            have hperm := ih (dsMeasure t)
              (by rw [← hn, dsMeasure_cons]; omega) t rfl
            simp only [List.map_cons, List.flatMap_cons, hz, descUpTo_zero,
              List.singleton_append]
            exact List.Perm.cons _ hperm
          · rw [if_neg hstop]
            obtain ⟨hexp, hdec⟩ :=
              dsBudget_expand stepDepth x.depth (Bool.not_eq_true _ ▸ hstop)
            by_cases hcont : x.node.isContainer
            · rw [if_pos hcont]
              have hlt : dsMeasure (t ++ dsKids x.node x.path x.depth) < n := by
                rw [← hn, dsMeasure_append, dsMeasure_cons]
                have := dsMeasure_dsKids_lt x.node x.path x.depth
                omega
              have hperm := ih _ hlt (t ++ dsKids x.node x.path x.depth) rfl
              rw [List.flatMap_append] at hperm
              simp only [List.map_cons, List.flatMap_cons]
              rw [descUpTo, if_pos hexp, hdec, ← dsKids_flatMap stepDepth]
              refine List.Perm.trans (List.Perm.cons _ hperm) ?_
              rw [List.cons_append]
              exact List.Perm.cons _ List.perm_append_comm
            · rw [if_neg hcont]
              have hperm := ih (dsMeasure t)
                (by rw [← hn, dsMeasure_cons]; omega) t rfl
              have hnil := childrenOf_eq_nil_of_not_container
                (Bool.not_eq_true _ ▸ hcont)
              simp only [List.map_cons, List.flatMap_cons]
              rw [descUpTo, if_pos hexp, hnil]
              simp only [descChildren, List.cons_append, List.nil_append]
              exact List.Perm.cons _ hperm

theorem nodupKeysB_nodup {l : List String} (h : nodupKeysB l = true) : l.Nodup := by
  induction l with
  | nil => simp
  | cons k ks ih =>
      simp only [nodupKeysB, Bool.and_eq_true, Bool.not_eq_true'] at h
      refine List.nodup_cons.mpr ⟨?_, ih h.2⟩
      intro hmem
      have : ks.contains k = true := List.elem_eq_true_of_mem hmem
      rw [h.1] at this
      cases this

theorem childrenOf_keys_nodup {v : Value} (hwf : v.wf = true) :
    ((childrenOf v).map Prod.fst).Nodup := by
  cases v with
  | arr xs =>
      have h : (childrenOf (.arr xs)).map Prod.fst
          = (xs.enum.map Prod.fst).map Key.idx := by
        simp only [childrenOf, List.map_map]
        rfl
      rw [h, List.enum_map_fst]
      exact (List.nodup_range _).map (fun a b => Key.idx.inj)
  | obj es =>
      have h : (childrenOf (.obj es)).map Prod.fst
          = (es.map Prod.fst).map Key.str := by
        simp only [childrenOf, List.map_map]
        rfl
      rw [h]
      simp only [Value.wf, Bool.and_eq_true] at hwf
      exact (nodupKeysB_nodup hwf.1).map (fun a b => Key.str.inj)
  | null => simp [childrenOf]
  | bool b => simp [childrenOf]
  | num n => simp [childrenOf]
  | str s => simp [childrenOf]

theorem find?_eq_of_keys_nodup {l : List (Key × Value)} {kc : Key × Value}
    (hnd : (l.map Prod.fst).Nodup) (hm : kc ∈ l) :
    l.find? (fun e => e.1 == kc.1) = some kc := by
  induction l with
  | nil => cases hm
  | cons x rest ih =>
      rcases List.mem_cons.mp hm with rfl | hm'
      · rw [List.find?_cons_of_pos]
        simp
      · have hk : kc.1 ∈ rest.map Prod.fst := List.mem_map_of_mem Prod.fst hm'
        have hx : x.1 ≠ kc.1 := by
          intro he
          exact (List.nodup_cons.mp (by simpa using hnd)).1 (he ▸ hk)
        rw [List.find?_cons_of_neg]
        · exact ih (List.nodup_cons.mp (by simpa using hnd)).2 hm'
        · simp [hx]

theorem mem_descUpTo_aux : ∀ (n : Nat) (v : Value), v.vsize = n → v.wf = true →
    ∀ (b : Option Nat) (path : List Key) (pr : List Key × Value),
    (pr ∈ descUpTo b path v ↔
      ∃ rel, pr.1 = path ++ rel ∧ resolveV v rel = some pr.2
        ∧ (∀ m, b = some m → rel.length ≤ m)) := by
  intro n
  induction n using Nat.strong_induction_on with
  | _ n ih =>
      intro v hs hwf b path pr
      rw [descUpTo]
      constructor
      · intro hm
        rcases List.mem_cons.mp hm with heq | hm'
        · subst heq
          exact ⟨[], by simp, rfl, fun m _ => Nat.zero_le m⟩
        · by_cases hexp : budgetExpand b = true
          · rw [if_pos hexp, descChildren_eq_flatMap] at hm'
            rcases List.mem_flatMap.mp hm' with ⟨kc, hkc, hpr⟩
            have hwfc := wf_child hwf hkc
            have hlt : kc.2.vsize < n := hs ▸ vsize_lt_of_mem_childrenOf hkc
            obtain ⟨rel, h1, h2, h3⟩ :=
              (ih _ hlt kc.2 rfl hwfc (budgetDec b) (path ++ [kc.1]) pr).mp hpr
            refine ⟨kc.1 :: rel, by simp [h1], ?_, ?_⟩
            · rw [resolveV, find?_eq_of_keys_nodup (childrenOf_keys_nodup hwf) hkc]
              exact h2
            · intro m hb
              subst hb
              have hm0 : m ≠ 0 := by
                intro h0
                subst h0
                simp [budgetExpand] at hexp
              have := h3 (m - 1) (by simp [budgetDec])
              simp only [List.length_cons]
              omega
          · rw [if_neg hexp] at hm'
            cases hm'
      · rintro ⟨rel, h1, h2, h3⟩
        cases rel with
        | nil =>
            have hpr : pr = (path, v) := by
              have hv : v = pr.2 := Option.some.inj h2
              rw [Prod.ext_iff]
              exact ⟨by simpa using h1, hv.symm⟩
            rw [hpr]
            exact List.mem_cons_self _ _
        | cons k ks =>
            rw [resolveV] at h2
            cases hf : (childrenOf v).find? (fun kc => kc.1 == k) with
            | none => rw [hf] at h2; cases h2
            | some kc =>
                rw [hf] at h2
                have hkcm := List.mem_of_find?_eq_some hf
                have hkck : kc.1 = k := by
                  have := List.find?_some hf
                  simpa using this
                have hwfc := wf_child hwf hkcm
                have hlt : kc.2.vsize < n := hs ▸ vsize_lt_of_mem_childrenOf hkcm
                have hexp : budgetExpand b = true := by
                  cases b with
                  | none => rfl
                  | some m =>
                      have hlen := h3 m rfl
                      cases m with
                      | zero => simp at hlen
                      | succ r => rfl
                rw [if_pos hexp, descChildren_eq_flatMap]
                refine List.mem_cons_of_mem _ (List.mem_flatMap.mpr ⟨kc, hkcm, ?_⟩)
                apply (ih _ hlt kc.2 rfl hwfc (budgetDec b) (path ++ [kc.1]) pr).mpr
                refine ⟨ks, by simp [h1, hkck], h2, ?_⟩
                intro m hm
                cases b with
                | none => cases hm
                | some mm =>
                    have hlen := h3 mm rfl
                    simp only [budgetDec, Option.some.injEq] at hm
                    simp only [List.length_cons] at hlen
                    omega

theorem mem_descUpTo {v : Value} (hwf : v.wf = true) (b : Option Nat)
    (path : List Key) (pr : List Key × Value) :
    pr ∈ descUpTo b path v ↔
      ∃ rel, pr.1 = path ++ rel ∧ resolveV v rel = some pr.2
        ∧ (∀ m, b = some m → rel.length ≤ m) :=
  mem_descUpTo_aux v.vsize v rfl hwf b path pr


theorem descUpTo_paths_nodup_aux : ∀ (n : Nat) (v : Value), v.vsize = n →
    v.wf = true → ∀ (b : Option Nat) (path : List Key),
    ((descUpTo b path v).map Prod.fst).Nodup := by
  intro n
  induction n using Nat.strong_induction_on with
  | _ n ih =>
      intro v hs hwf b path
      rw [descUpTo]
      by_cases hexp : budgetExpand b = true
      · rw [if_pos hexp, List.map_cons, List.nodup_cons]
        constructor
        · intro hmem
          rw [descChildren_eq_flatMap, List.map_flatMap] at hmem
          rcases List.mem_flatMap.mp hmem with ⟨kc, hkc, hp⟩
          rcases List.mem_map.mp hp with ⟨pr, hpr, hpath⟩
          obtain ⟨rel, h1, -, -⟩ :=
            (mem_descUpTo (wf_child hwf hkc) (budgetDec b) (path ++ [kc.1]) pr).mp hpr
          have heq : path = path ++ [kc.1] ++ rel := (hpath.symm).trans h1
          have hlen := congrArg List.length heq
          simp at hlen
        · rw [descChildren_eq_flatMap, List.map_flatMap, List.nodup_flatMap]
          constructor
          · intro kc hkc
            exact ih kc.2.vsize (hs ▸ vsize_lt_of_mem_childrenOf hkc) kc.2 rfl
              (wf_child hwf hkc) (budgetDec b) (path ++ [kc.1])
          · have hkeys : (childrenOf v).Pairwise (fun a c => a.1 ≠ c.1) :=
              List.pairwise_map.mp (childrenOf_keys_nodup hwf)
            refine List.Pairwise.imp_of_mem ?_ hkeys
            intro a c hma hmc hne
            intro p hpa hpc
            rcases List.mem_map.mp hpa with ⟨pra, hpra, hppa⟩
            rcases List.mem_map.mp hpc with ⟨prc, hprc, hppc⟩
            obtain ⟨ra, ha1, -, -⟩ :=
              (mem_descUpTo (wf_child hwf hma) (budgetDec b) (path ++ [a.1]) pra).mp hpra
            obtain ⟨rc, hc1, -, -⟩ :=
              (mem_descUpTo (wf_child hwf hmc) (budgetDec b) (path ++ [c.1]) prc).mp hprc
            have heq : path ++ [a.1] ++ ra = path ++ [c.1] ++ rc := by
              rw [← ha1, ← hc1, hppa, hppc]
            rw [List.append_assoc, List.append_assoc] at heq
            have := List.append_cancel_left heq
            simp only [List.singleton_append, List.cons.injEq] at this
            exact hne this.1
      · rw [if_neg hexp]
        simp

/-- Under well-formedness, the depth-first enumeration visits each
path at most once. -/
theorem descUpTo_paths_nodup {v : Value} (hwf : v.wf = true) (b : Option Nat)
    (path : List Key) : ((descUpTo b path v).map Prod.fst).Nodup :=
  descUpTo_paths_nodup_aux v.vsize v rfl hwf b path

/-- C4: for a frontier member anchoring a double-star step over a
well-formed tree, the emitted `(path, node)` pairs are, as a multiset,
exactly the anchor (relative depth 0) together with every descendant
within the depth bound; the enumeration's paths are pairwise distinct
(each node emitted exactly once), and a pair belongs to it precisely
when its path extends the anchor's by a resolvable relative path of
length at most the bound (any length when the bound is absent). -/
theorem C4_double_star (stepDepth : Option Nat) (v : Value) (p0 : Option Value)
    (k0 : Option Key) (path : List Key) (hwf : v.wf = true) :
    List.Perm ((dsRun stepDepth [⟨v, p0, k0, path, 0⟩]).map (fun t => (t.path, t.node)))
      (descUpTo stepDepth path v)
    ∧ ((descUpTo stepDepth path v).map Prod.fst).Nodup
    ∧ (∀ pr : List Key × Value, pr ∈ descUpTo stepDepth path v ↔
        ∃ rel, pr.1 = path ++ rel ∧ resolveV v rel = some pr.2
          ∧ (∀ m, stepDepth = some m → rel.length ≤ m)) := by
  refine ⟨?_, descUpTo_paths_nodup hwf stepDepth path,
    fun pr => mem_descUpTo hwf stepDepth path pr⟩
  have hb : dsBudget stepDepth 0 = stepDepth := by cases stepDepth <;> rfl
  have h := dsRun_perm stepDepth [⟨v, p0, k0, path, 0⟩]
  simpa [hb] using h

theorem C4_double_star_witness :
    Value.wf (Value.obj [("a", Value.obj [("b", Value.num 1), ("c", Value.num 2)])]) = true
    ∧ (List.Perm
        ((dsRun (some 1)
            [⟨Value.obj [("a", Value.obj [("b", Value.num 1), ("c", Value.num 2)])],
              none, none, [], 0⟩]).map (fun t => (t.path, t.node)))
        (descUpTo (some 1) []
          (Value.obj [("a", Value.obj [("b", Value.num 1), ("c", Value.num 2)])]))
      ∧ ((descUpTo (some 1) []
          (Value.obj [("a", Value.obj [("b", Value.num 1), ("c", Value.num 2)])])).map
            Prod.fst).Nodup
      ∧ (∀ pr : List Key × Value,
          pr ∈ descUpTo (some 1) []
              (Value.obj [("a", Value.obj [("b", Value.num 1), ("c", Value.num 2)])]) ↔
            ∃ rel, pr.1 = [] ++ rel
              ∧ resolveV (Value.obj [("a", Value.obj [("b", Value.num 1), ("c", Value.num 2)])])
                  rel = some pr.2
              ∧ (∀ m, (some 1 : Option Nat) = some m → rel.length ≤ m))) :=
  ⟨rfl, C4_double_star (some 1)
    (Value.obj [("a", Value.obj [("b", Value.num 1), ("c", Value.num 2)])])
    none none [] rfl⟩
